import Mathlib

/-!
# Verification of the CBE/CBS blob codecs (bford/cofo)

Shallow embedding of the Composable Binary Encoding codecs:

* `Cbs` — the streaming chunked encoder/decoder (`cbe/cbs.go`):
  `Encoder.ReadFrom`, `Decoder.header`, `Decoder.WriteTo`, and the
  integer value adapters `Encoder.Int64` / `Decoder.Int64`.
* `Cbe` — the full contiguous codec (`cbe/cbe.go`): `Encode`,
  `decodeHeader`, `Decode`.
* `CbeSmall` — the small-only contiguous codec (`cbe.go`): `Encode`,
  `decodeHeader`, `Decode`.

Bytes are modelled as `Nat`; Go `byte(x)` truncation is `x % 256`,
`x >> k` is `x / 2^k`, `x << k` is `x * 2^k`, `x & 0x3f` is `x % 64`,
`x & 0x1f` is `x % 32`.  Fallible operations return `Option`/`Except`;
a Go `panic` is `Option.none`.
-/

namespace Cofo

/-- Errors of the contiguous header parsers: `EOF` (`io.EOF`) and
`TooLong` (`errors.New("blob content too long")`). -/
inductive CErr where
  | eof
  | tooLong
deriving DecidableEq, Repr

namespace Cbs

/-- `MinChunkLen`: minimum streamable chunk size (`0x4000`). -/
def MinChunkLen : Nat := 0x4000

/-- `MaxChunkLen`: maximum streamable chunk size (`0x203fff`). -/
def MaxChunkLen : Nat := 0x203fff

/-- One chunk emitted by `Encoder.ReadFrom`: the `more=true` flag of the
iteration that produced it, the header bytes written (`buf[h:4]`), and the
payload bytes (`buf[4:4+l]`). -/
structure Chunk where
  part : Bool
  hdr : List Nat
  payload : List Nat
deriving DecidableEq, Repr

/-- Header of a chunk-size non-final blob chunk, from the first branch of
`Encoder.ReadFrom`: `n := l - 16384; buf[0] = 0x81; buf[1] = 0x60 + byte(n >> 16);
buf[2] = byte(n >> 8); buf[3] = byte(n)`, where `l = chunkLen = c`. -/
def partHdr (c : Nat) : List Nat :=
  [0x81, (0x60 + (c - 16384) / 65536 % 256) % 256,
   (c - 16384) / 256 % 256, (c - 16384) % 256]

/-- The chunk written by the final iteration of `Encoder.ReadFrom`
(the `more = false` branches), for a last read of `l = s.length` bytes:
* `l == 1 && buf[4] < 128`: no header, the payload byte stands alone;
* `l < 128`: one header byte `0x80 + l`;
* `l < 16384+128`: three header bytes `0x81, byte(n>>8), byte(n)` with `n = l - 128`;
* else: four header bytes `0x81, 0x40 + byte(n>>16), byte(n>>8), byte(n)`
  with `n = l - 16384`. -/
def finalChunk (s : List Nat) : Chunk :=
  let l := s.length
  if l = 1 ∧ s.head?.getD 0 < 128 then ⟨false, [], s⟩
  else if l < 128 then ⟨false, [128 + l], s⟩
  else if l < 16384 + 128 then
    ⟨false, [0x81, (l - 128) / 256 % 256, (l - 128) % 256], s⟩
  else
    ⟨false, [0x81, (0x40 + (l - 16384) / 65536 % 256) % 256,
             (l - 16384) / 256 % 256, (l - 16384) % 256], s⟩

/-- The chunk sequence emitted by `Encoder.ReadFrom` reading the finite
source `s` with chunk size `c` (`chunkLen = len(buf) - 4`).  Each loop
iteration does `io.ReadFull(r, buf[4:])`: it reads `c` bytes with no error
exactly when at least `c` bytes remain, in which case a chunk-size
non-final chunk is emitted and the loop continues (`more = true`);
otherwise the bytes read are `l = s.length < c` and the final chunk is
emitted.  (`c = 0` cannot arise: the default chunk size is `MinChunkLen`
and `SetChunkLen` rejects smaller values.) -/
def readFromChunks (c : Nat) (s : List Nat) : List Chunk :=
  if h : 0 < c ∧ c ≤ s.length then
    ⟨true, partHdr c, s.take c⟩ :: readFromChunks c (s.drop c)
  else
    [finalChunk s]
termination_by s.length
decreasing_by
  simp only [List.length_drop]
  omega

/-- The byte stream written by `Encoder.ReadFrom`: each iteration writes
`buf[h : 4+l]`, i.e. the chunk's header bytes followed by its payload. -/
def readFrom (c : Nat) (s : List Nat) : List Nat :=
  ((readFromChunks c s).map fun ch => ch.hdr ++ ch.payload).flatten

/-- `Decoder.header`: parse the header of the next blob or chunk from the
byte stream `s`.  Returns the payload length, the non-final flag, and the
rest of the stream (an `UnreadByte` leaves the byte in the stream).
`none` models a read failing with an error (`io.EOF`). -/
def header : List Nat → Option (Nat × Bool × List Nat)
  | [] => none
  | b0 :: r =>
    if b0 < 0x80 then some (1, false, b0 :: r)
    else if b0 ≠ 0x81 then some (b0 - 0x80, false, r)
    else
      match r with
      | [] => none
      | b1 :: r1 =>
        if 0x80 ≤ b1 then some (1, false, b1 :: r1)
        else
          match r1 with
          | [] => none
          | b2 :: r2 =>
            if b1 < 0x40 then some (128 + b1 * 256 + b2, false, r2)
            else
              match r2 with
              | [] => none
              | b3 :: r3 =>
                if b1 < 0x60 then
                  some (16384 + b1 % 32 * 65536 + b2 * 256 + b3, false, r3)
                else
                  some (16384 + b1 % 32 * 65536 + b2 * 256 + b3, true, r3)

theorem header_part_length {s r : List Nat} {n : Nat}
    (h : header s = some (n, true, r)) : r.length + 4 = s.length := by
  match s with
  | [] => simp [header] at h
  | b0 :: t =>
    simp only [header] at h
    split at h
    · simp at h
    · split at h
      · simp at h
      · match t with
        | [] => simp at h
        | b1 :: t1 =>
          simp only at h
          split at h
          · simp at h
          · match t1 with
            | [] => simp at h
            | b2 :: t2 =>
              simp only at h
              split at h
              · simp at h
              · match t2 with
                | [] => simp at h
                | b3 :: t3 =>
                  simp only at h
                  split at h
                  · simp at h
                  · simp only [Option.some.injEq, Prod.mk.injEq] at h
                    obtain ⟨-, -, h3⟩ := h
                    subst h3
                    simp [List.length_cons]

/-- `Decoder.WriteTo`: decode the next complete blob from the stream and
write it to the sink.  Returns the bytes written and the remaining stream;
`none` models returning an error (header read failure, or `io.CopyN`
finding fewer than `n` bytes). -/
def writeTo (s : List Nat) : Option (List Nat × List Nat) :=
  match h : header s with
  | none => none
  | some (n, part, rest) =>
    if n ≤ rest.length then
      if hp : part then
        match writeTo (rest.drop n) with
        | none => none
        | some (out2, rest2) => some (rest.take n ++ out2, rest2)
      else
        some (rest.take n, rest.drop n)
    else
      none
termination_by s.length
decreasing_by
  rw [hp] at h
  have := header_part_length h
  simp only [List.length_drop]
  omega

/-- `binary.BigEndian.PutUint64`: the eight big-endian bytes of `v`. -/
def putUint64BE (v : Nat) : List Nat :=
  [v / 2 ^ 56 % 256, v / 2 ^ 48 % 256, v / 2 ^ 40 % 256, v / 2 ^ 32 % 256,
   v / 2 ^ 24 % 256, v / 2 ^ 16 % 256, v / 2 ^ 8 % 256, v % 256]

/-- The byte slice blob-encoded by `Encoder.Uint64`: the eight big-endian
bytes of `v` with leading `0` bytes trimmed. -/
def uint64Bytes (v : Nat) : List Nat :=
  (putUint64BE v).dropWhile (· == 0)

/-- The unsigned value `u` computed by `Encoder.Int64` before calling
`Uint64`: `v >= 0 → uint64(v) << 1`, `v < 0 → uint64(^v) << 1 + 1`
(Go `^v = -v-1`; the shift wraps at 2^64). -/
def int64U (v : Int) : Nat :=
  if 0 ≤ v then 2 * v.toNat % 2 ^ 64
  else (2 * (-v - 1).toNat + 1) % 2 ^ 64

/-- The byte stream written by `Encoder.Int64` at chunk size `c`:
zig-zag map, big-endian trim, then the streaming blob encoding. -/
def encoderInt64 (c : Nat) (v : Int) : List Nat :=
  readFrom c (uint64Bytes (int64U v))

/-- `binary.BigEndian.Uint64` of an 8-byte buffer (big-endian value). -/
def beVal (l : List Nat) : Nat :=
  l.foldl (fun a b => a * 256 + b) 0

/-- `Decoder.Uint64`: decode a blob via `WriteTo`, reject more than 8
payload bytes, and read the payload copied into the low end of a zeroed
8-byte buffer as a big-endian integer. -/
def decoderUint64 (s : List Nat) : Option Nat :=
  match writeTo s with
  | none => none
  | some (b, _) =>
    if 8 < b.length then none
    else some (beVal (List.replicate (8 - b.length) 0 ++ b))

/-- Reinterpretation `int64(x)` of a `uint64` value `x`. -/
def int64Of (x : Nat) : Int :=
  if x < 2 ^ 63 then (x : Int) else (x : Int) - 2 ^ 64

/-- The zig-zag decoding branch of `Decoder.Int64`:
`v & 1 == 0 → int64(v >> 1)`, else `-1 - int64(v >> 1)`. -/
def zigzagDec (v : Nat) : Int :=
  if v % 2 = 0 then int64Of (v / 2) else -1 - int64Of (v / 2)

/-- `Decoder.Int64`: `Uint64` followed by the zig-zag decoding branch. -/
def decoderInt64 (s : List Nat) : Option Int :=
  match decoderUint64 s with
  | none => none
  | some v => some (zigzagDec v)

end Cbs

namespace Cbe

/-- `decodeHeader` of the full contiguous decoder (`cbe/cbe.go`): parse a
blob header from the start of `buf`, returning `(dataOfs, dataLen, part)`.
Returns `EOF` when the buffer holds no complete header. -/
def decodeHeader (buf : List Nat) : Except CErr (Nat × Nat × Bool) :=
  match buf with
  | [] => .error .eof
  | b0 :: r =>
    if b0 < 128 then .ok (0, 1, false)
    else if b0 ≠ 129 ∧ b0 < 128 + 64 then .ok (1, b0 - 128, false)
    else
      match r with
      | [] => .error .eof
      | b1 :: r1 =>
        if b0 = 129 ∧ 128 ≤ b1 then .ok (1, 1, false)
        else if 128 + 64 ≤ b0 then .ok (2, 64 + b0 % 64 * 256 + b1, false)
        else
          match r1 with
          | [] => .error .eof
          | [_] => .error .eof
          | b2 :: b3 :: _ =>
            .ok (4, 16448 + b1 % 64 * 65536 + b2 * 256 + b3, decide (64 ≤ b1))

theorem decodeHeader_part_ofs {buf : List Nat} {o n : Nat}
    (h : decodeHeader buf = .ok (o, n, true)) : o = 4 := by
  match buf with
  | [] => simp [decodeHeader] at h
  | b0 :: r =>
    simp only [decodeHeader] at h
    split at h
    · simp at h
    · split at h
      · simp at h
      · match r with
        | [] => simp at h
        | b1 :: r1 =>
          simp only at h
          split at h
          · simp at h
          · split at h
            · simp at h
            · match r1 with
              | [] => simp at h
              | [_] => simp at h
              | b2 :: b3 :: _ =>
                simp only [Except.ok.injEq, Prod.mk.injEq] at h
                exact h.1.symm

/-- `Decode` of the full contiguous decoder (`cbe/cbe.go`): repeatedly
parse a chunk header and collect its payload, concatenating payloads of
non-final chunks until a final chunk, returning the content and the
remainder of the buffer.  `EOF` if the buffer holds no complete blob. -/
def Decode (buf : List Nat) : Except CErr (List Nat × List Nat) :=
  match h : decodeHeader buf with
  | .error e => .error e
  | .ok (ofs, n, part) =>
    if buf.length < ofs + n then .error .eof
    else
      if hp : part then
        match Decode (buf.drop (ofs + n)) with
        | .error e => .error e
        | .ok (c2, r2) => .ok ((buf.drop ofs).take n ++ c2, r2)
      else
        .ok ((buf.drop ofs).take n, buf.drop (ofs + n))
termination_by buf.length
decreasing_by
  rw [hp] at h
  have := decodeHeader_part_ofs h
  simp only [List.length_drop]
  omega

/-- `Encode` of the full contiguous encoder (`cbe/cbe.go`): append the
blob encoding of `src` to `dst`.  Blobs of 4210752 bytes or more fall
back on the streaming `Encoder` with maximum-size chunks. -/
def Encode (dst src : List Nat) : List Nat :=
  let n := src.length
  if n = 1 ∧ src.head?.getD 0 < 128 then dst ++ src
  else if n < 64 then dst ++ (128 + n) :: src
  else if n < 16448 then
    dst ++ (0xc0 + (n - 64) / 256 % 256) % 256 :: (n - 64) % 256 :: src
  else if n < 4210752 then
    dst ++ 0x81 :: (n - 16448) / 65536 % 256 :: (n - 16448) / 256 % 256 ::
      (n - 16448) % 256 :: src
  else
    dst ++ Cbs.readFrom Cbs.MaxChunkLen src

end Cbe

namespace CbeSmall

/-- `decodeHeader` of the small-only decoder (`cbe.go`): parse the header
of a small blob, returning `(contentOfs, contentLen)`.  Returns `EOF` on
an incomplete header and `TooLong` on a 4-byte streaming-capable header. -/
def decodeHeader (buf : List Nat) : Except CErr (Nat × Nat) :=
  match buf with
  | [] => .error .eof
  | b0 :: r =>
    if b0 < 128 then .ok (0, 1)
    else if b0 ≠ 129 ∧ b0 < 128 + 64 then .ok (1, b0 - 128)
    else
      match r with
      | [] => .error .eof
      | b1 :: _ =>
        if b0 = 129 ∧ 128 ≤ b1 then .ok (1, 1)
        else if 128 + 64 ≤ b0 then .ok (2, 64 + b0 % 64 * 256 + b1)
        else .error .tooLong

/-- `Decode` of the small-only decoder (`cbe.go`): decode one small blob
from the start of `buf`, returning its content and the remainder. -/
def Decode (buf : List Nat) : Except CErr (List Nat × List Nat) :=
  match decodeHeader buf with
  | .error e => .error e
  | .ok (ofs, n) =>
    if buf.length < ofs + n then .error .eof
    else .ok ((buf.drop ofs).take n, buf.drop (ofs + n))

/-- `Encode` of the small-only encoder (`cbe.go`): append the blob
encoding of `src` to `dst`; `none` models the
`"content too large for small-blob encoder"` panic. -/
def Encode (dst src : List Nat) : Option (List Nat) :=
  let n := src.length
  if n = 1 ∧ src.head?.getD 0 < 128 then some (dst ++ src)
  else if n < 64 then some (dst ++ (128 + n) :: src)
  else if n < 16448 then
    some (dst ++ (0xc0 + (n - 64) / 256 % 256) % 256 :: (n - 64) % 256 :: src)
  else none

end CbeSmall

/-! ## Helper lemmas about the streaming codec -/

namespace Cbs

theorem readFromChunks_of_le {c : Nat} (s : List Nat) (h1 : 0 < c)
    (h2 : c ≤ s.length) :
    readFromChunks c s = ⟨true, partHdr c, s.take c⟩ :: readFromChunks c (s.drop c) := by
  rw [readFromChunks]
  simp [h1, h2]

theorem readFromChunks_of_lt {c : Nat} (s : List Nat) (h : s.length < c) :
    readFromChunks c s = [finalChunk s] := by
  rw [readFromChunks]
  simp
  omega

theorem finalChunk_payload (s : List Nat) : (finalChunk s).payload = s := by
  simp only [finalChunk]
  split_ifs <;> rfl

theorem finalChunk_part (s : List Nat) : (finalChunk s).part = false := by
  simp only [finalChunk]
  split_ifs <;> rfl

theorem readFrom_of_le {c : Nat} (s : List Nat) (h1 : 0 < c) (h2 : c ≤ s.length) :
    readFrom c s = partHdr c ++ (s.take c ++ readFrom c (s.drop c)) := by
  unfold readFrom
  rw [readFromChunks_of_le s h1 h2]
  simp

theorem readFrom_of_lt {c : Nat} (s : List Nat) (h : s.length < c) :
    readFrom c s = (finalChunk s).hdr ++ s := by
  unfold readFrom
  rw [readFromChunks_of_lt s h]
  simp [finalChunk_payload]

/-- Parsing a chunk-size non-final header recovers the chunk size. -/
theorem header_partHdr {c : Nat} (h1 : 16384 ≤ c) (h2 : c ≤ 2113535)
    (t : List Nat) : header (partHdr c ++ t) = some (c, true, t) := by
  have hq : (c - 16384) / 65536 ≤ 31 := by omega
  have hb1 : (0x60 + (c - 16384) / 65536 % 256) % 256 = 96 + (c - 16384) / 65536 := by
    omega
  simp only [partHdr, List.cons_append, List.nil_append, header, hb1]
  rw [if_neg (by omega), if_neg (by omega), if_neg (by omega), if_neg (by omega),
    if_neg (by omega)]
  simp only [Option.some.injEq, Prod.mk.injEq, and_true, true_and]
  omega

theorem header_cons_small {b : Nat} (hb : b < 128) (t : List Nat) :
    header (b :: t) = some (1, false, b :: t) := by
  simp [header, hb]

theorem header_cons_inline2 {b : Nat} (hb : 128 ≤ b) (t : List Nat) :
    header (129 :: b :: t) = some (1, false, b :: t) := by
  simp [header, hb]

theorem header_cons_1byte {n : Nat} (h1 : n ≠ 1) (h128 : n < 128) (t : List Nat) :
    header ((128 + n) :: t) = some (n, false, t) := by
  simp only [header]
  rw [if_neg (by omega), if_pos (by omega)]
  simp only [Option.some.injEq, Prod.mk.injEq, and_true, true_and]
  omega

theorem header_cons_3byte {d1 : Nat} (hd1 : d1 < 64) (d2 : Nat) (t : List Nat) :
    header (129 :: d1 :: d2 :: t) = some (128 + d1 * 256 + d2, false, t) := by
  simp only [header]
  rw [if_neg (by decide), if_neg (by decide), if_neg (by omega), if_pos (by omega)]

theorem header_cons_4final {d1 : Nat} (h1 : 64 ≤ d1) (h2 : d1 < 96)
    (d2 d3 : Nat) (t : List Nat) :
    header (129 :: d1 :: d2 :: d3 :: t)
      = some (16384 + d1 % 32 * 65536 + d2 * 256 + d3, false, t) := by
  simp only [header]
  rw [if_neg (by decide), if_neg (by decide), if_neg (by omega), if_neg (by omega),
    if_pos (by omega)]

theorem header_cons_4part {d1 : Nat} (h1 : 96 ≤ d1) (h2 : d1 < 128)
    (d2 d3 : Nat) (t : List Nat) :
    header (129 :: d1 :: d2 :: d3 :: t)
      = some (16384 + d1 % 32 * 65536 + d2 * 256 + d3, true, t) := by
  simp only [header]
  rw [if_neg (by decide), if_neg (by decide), if_neg (by omega), if_neg (by omega),
    if_neg (by omega)]

/-- Parsing the final chunk emitted for a last read of `s` (of length
less than 2113535) yields its length, the final flag, and the rest. -/
theorem header_finalChunk (s : List Nat) (hs : s.length < 2113535)
    (t : List Nat) :
    header ((finalChunk s).hdr ++ (s ++ t)) = some (s.length, false, s ++ t) := by
  simp only [finalChunk]
  split_ifs with hA hB hC
  · -- 1-byte no-header blob: a single byte below 128
    obtain ⟨h1, hb⟩ := hA
    match s, h1 with
    | [b], _ =>
      simp only [List.head?_cons, Option.getD_some] at hb
      simpa using header_cons_small hb t
  · -- short blob with 1-byte header 0x80 + l
    by_cases h1 : s.length = 1
    · -- length 1 with byte at least 128: header byte is 0x81
      match s, h1 with
      | [b], _ =>
        have hb : 128 ≤ b := by
          rcases Nat.lt_or_ge b 128 with hlt | hge
          · exact absurd ⟨by simp, by simpa using hlt⟩ hA
          · exact hge
        simpa using header_cons_inline2 hb t
    · -- any other length below 128
      simpa using header_cons_1byte h1 hB (s ++ t)
  · -- medium blob with 3-byte header
    have hd1 : (s.length - 128) / 256 % 256 = (s.length - 128) / 256 := by omega
    have hv : 128 + (s.length - 128) / 256 * 256 + (s.length - 128) % 256
        = s.length := by omega
    simp only [List.cons_append, List.nil_append, hd1]
    rw [header_cons_3byte (by omega) _ _, hv]
  · -- large blob with 4-byte header
    have hb1 : (0x40 + (s.length - 16384) / 65536 % 256) % 256
        = 64 + (s.length - 16384) / 65536 := by omega
    have hm : (64 + (s.length - 16384) / 65536) % 32
        = (s.length - 16384) / 65536 := by omega
    have hv : 16384 + (s.length - 16384) / 65536 * 65536
        + (s.length - 16384) / 256 % 256 * 256 + (s.length - 16384) % 256
        = s.length := by omega
    simp only [List.cons_append, List.nil_append, hb1]
    rw [header_cons_4final (by omega) (by omega) _ _, hm, hv]

theorem writeTo_of_final {s rest : List Nat} {n : Nat}
    (h : header s = some (n, false, rest)) (hn : n ≤ rest.length) :
    writeTo s = some (rest.take n, rest.drop n) := by
  rw [writeTo.eq_def, h]
  simp [hn]

theorem writeTo_of_part {s rest : List Nat} {n : Nat}
    (h : header s = some (n, true, rest)) (hn : n ≤ rest.length) :
    writeTo s =
      match writeTo (rest.drop n) with
      | none => none
      | some (out2, rest2) => some (rest.take n ++ out2, rest2) := by
  rw [writeTo.eq_def, h]
  simp [hn]

/-- Round trip of the streaming codec, by strong induction on the length
of the source. -/
theorem writeTo_readFrom {c : Nat} (h1 : 16384 ≤ c) (h2 : c ≤ 2113535) :
    ∀ N s, s.length ≤ N → writeTo (readFrom c s) = some (s, []) := by
  intro N
  induction N with
  | zero =>
    intro s hs
    have hempty : s = [] := List.eq_nil_of_length_eq_zero (by omega)
    subst hempty
    rw [readFrom_of_lt ([] : List Nat) (by simp only [List.length_nil]; omega)]
    have hh := header_finalChunk [] (by simp only [List.length_nil]; omega) []
    simp only [List.nil_append] at hh
    rw [writeTo_of_final hh (by simp)]
    simp
  | succ N ih =>
    intro s hs
    by_cases hc : c ≤ s.length
    · -- a chunk-size non-final chunk, then recurse
      rw [readFrom_of_le s (by omega) hc]
      have htake : (s.take c).length = c := by simp; omega
      have hh := header_partHdr h1 h2 (s.take c ++ readFrom c (s.drop c))
      rw [writeTo_of_part hh (by simp [htake])]
      have hdropc : (s.take c ++ readFrom c (s.drop c)).drop c
          = readFrom c (s.drop c) := List.drop_left' htake
      have htakec : (s.take c ++ readFrom c (s.drop c)).take c = s.take c :=
        List.take_left' htake
      rw [hdropc, htakec, ih (s.drop c) (by simp; omega)]
      simp
    · -- the final chunk
      rw [readFrom_of_lt s (by omega)]
      have hh := header_finalChunk s (by omega) []
      simp only [List.append_nil] at hh
      rw [writeTo_of_final hh (by simp)]
      simp

/-- Every chunk flagged non-final carries exactly `c` payload bytes. -/
theorem readFromChunks_part_payload {c : Nat} (hc : 0 < c) :
    ∀ N s, s.length ≤ N →
      ∀ ch ∈ readFromChunks c s, ch.part = true → ch.payload.length = c := by
  intro N
  induction N with
  | zero =>
    intro s hs ch hch hp
    rw [readFromChunks_of_lt s (by omega)] at hch
    simp only [List.mem_singleton] at hch
    rw [hch, finalChunk_part] at hp
    cases hp
  | succ N ih =>
    intro s hs ch hch hp
    by_cases hcs : c ≤ s.length
    · rw [readFromChunks_of_le s hc hcs] at hch
      rcases List.mem_cons.mp hch with h | h
      · rw [h]
        simp only [List.length_take]
        omega
      · exact ih (s.drop c) (by simp only [List.length_drop]; omega) ch h hp
    · rw [readFromChunks_of_lt s (by omega)] at hch
      simp only [List.mem_singleton] at hch
      rw [hch, finalChunk_part] at hp
      cases hp

/-- The chunk sequence is some non-final chunks followed by one final chunk. -/
theorem readFromChunks_split {c : Nat} (hc : 0 < c) :
    ∀ N s, s.length ≤ N →
      ∃ ps lc, readFromChunks c s = ps ++ [lc] ∧
        (∀ p ∈ ps, p.part = true) ∧ lc.part = false := by
  intro N
  induction N with
  | zero =>
    intro s hs
    exact ⟨[], finalChunk s, by rw [readFromChunks_of_lt s (by omega)]; rfl,
      by simp, finalChunk_part s⟩
  | succ N ih =>
    intro s hs
    by_cases hcs : c ≤ s.length
    · obtain ⟨ps, lc, he, hps, hlc⟩ :=
        ih (s.drop c) (by simp only [List.length_drop]; omega)
      refine ⟨⟨true, partHdr c, s.take c⟩ :: ps, lc, ?_, ?_, hlc⟩
      · rw [readFromChunks_of_le s hc hcs, he]
        rfl
      · intro p hp
        rcases List.mem_cons.mp hp with h | h
        · rw [h]
        · exact hps p h
    · exact ⟨[], finalChunk s, by rw [readFromChunks_of_lt s (by omega)]; rfl,
        by simp, finalChunk_part s⟩

/-- The chunk list on a 40000-byte source at chunk size 16384. -/
theorem chunks40000 :
    readFromChunks 16384 (List.replicate 40000 0) =
      [⟨true, [0x81, 0x60, 0x00, 0x00], List.replicate 16384 0⟩,
       ⟨true, [0x81, 0x60, 0x00, 0x00], List.replicate 16384 0⟩,
       ⟨false, [0x81, 0x1B, 0xC0], List.replicate 7232 0⟩] := by
  have e1 := @readFromChunks_of_le 16384 (List.replicate 40000 0) (by decide)
    (by simp only [List.length_replicate]; decide)
  have e2 := @readFromChunks_of_le 16384 (List.replicate 23616 0) (by decide)
    (by simp only [List.length_replicate]; decide)
  have e3 := @readFromChunks_of_lt 16384 (List.replicate 7232 0)
    (by simp only [List.length_replicate]; decide)
  have e4 : partHdr 16384 = [0x81, 0x60, 0x00, 0x00] := by norm_num [partHdr]
  have e5 : finalChunk (List.replicate 7232 0)
      = ⟨false, [0x81, 0x1B, 0xC0], List.replicate 7232 0⟩ := by
    simp only [finalChunk, List.length_replicate]
    norm_num
  rw [e1, List.take_replicate, List.drop_replicate]
  norm_num
  rw [e2, List.take_replicate, List.drop_replicate]
  norm_num
  rw [e3, e4, e5]
  exact ⟨rfl, rfl⟩

end Cbs

/-! ## Helper lemmas about the contiguous codecs -/

namespace Cbe

theorem decodeHeader_ne_tooLong (buf : List Nat) :
    decodeHeader buf ≠ .error CErr.tooLong := by
  match buf with
  | [] => simp [decodeHeader]
  | [b0] =>
    simp only [decodeHeader]
    split_ifs <;> simp
  | [b0, b1] =>
    simp only [decodeHeader]
    split_ifs <;> simp
  | [b0, b1, b2] =>
    simp only [decodeHeader]
    split_ifs <;> simp
  | b0 :: b1 :: b2 :: b3 :: rest =>
    simp only [decodeHeader]
    split_ifs <;> simp

theorem Decode_of_err {buf : List Nat} {e : CErr}
    (h : decodeHeader buf = .error e) : Decode buf = .error e := by
  rw [Decode.eq_def, h]

theorem Decode_of_short {buf : List Nat} {ofs n : Nat} {part : Bool}
    (h : decodeHeader buf = .ok (ofs, n, part))
    (hlen : buf.length < ofs + n) : Decode buf = .error .eof := by
  rw [Decode.eq_def, h]
  simp [hlen]

theorem Decode_of_final {buf : List Nat} {ofs n : Nat}
    (h : decodeHeader buf = .ok (ofs, n, false))
    (hlen : ¬ buf.length < ofs + n) :
    Decode buf = .ok ((buf.drop ofs).take n, buf.drop (ofs + n)) := by
  rw [Decode.eq_def, h]
  simp [hlen]

theorem Decode_of_part {buf : List Nat} {ofs n : Nat}
    (h : decodeHeader buf = .ok (ofs, n, true))
    (hlen : ¬ buf.length < ofs + n) :
    Decode buf =
      match Decode (buf.drop (ofs + n)) with
      | .error e => .error e
      | .ok (c2, r2) => .ok ((buf.drop ofs).take n ++ c2, r2) := by
  rw [Decode.eq_def, h]
  simp [hlen]

theorem Decode_ne_tooLong (buf : List Nat) :
    Decode buf ≠ .error CErr.tooLong := by
  generalize hN : buf.length = N
  induction N using Nat.strong_induction_on generalizing buf with
  | _ N ih =>
    subst hN
    match hd : decodeHeader buf with
    | .error e =>
      rw [Decode_of_err hd]
      intro hcon
      cases hcon
      exact decodeHeader_ne_tooLong buf hd
    | .ok (ofs, n, part) =>
      by_cases hlen : buf.length < ofs + n
      · rw [Decode_of_short hd hlen]
        simp
      · cases part with
        | false =>
          rw [Decode_of_final hd hlen]
          simp
        | true =>
          rw [Decode_of_part hd hlen]
          have hofs := decodeHeader_part_ofs hd
          have hrec := ih (buf.drop (ofs + n)).length
            (by simp only [List.length_drop]; omega) (buf.drop (ofs + n)) rfl
          match hrd : Decode (buf.drop (ofs + n)) with
          | .error e =>
            simp only []
            intro hcon
            cases hcon
            rw [hrd] at hrec
            exact hrec rfl
          | .ok (c2, r2) => simp

end Cbe

namespace CbeSmall

theorem decodeHeader_tooLong_iff (buf : List Nat) :
    decodeHeader buf = .error CErr.tooLong ↔
      ∃ b0 b1 rest, buf = b0 :: b1 :: rest ∧ b0 = 0x81 ∧ b1 < 0x80 := by
  match buf with
  | [] =>
    simp [decodeHeader]
  | [b0] =>
    simp only [decodeHeader]
    split_ifs <;> simp
  | b0 :: b1 :: rest =>
    simp only [decodeHeader]
    split_ifs with h1 h2 h3 h4
    · simp only [reduceCtorEq, false_iff]
      rintro ⟨b0', b1', rest', heq, h129, -⟩
      cases heq
      omega
    · simp only [reduceCtorEq, false_iff]
      rintro ⟨b0', b1', rest', heq, h129, -⟩
      cases heq
      omega
    · simp only [reduceCtorEq, false_iff]
      rintro ⟨b0', b1', rest', heq, h129, hlt⟩
      cases heq
      omega
    · simp only [reduceCtorEq, false_iff]
      rintro ⟨b0', b1', rest', heq, h129, -⟩
      cases heq
      omega
    · simp only [Except.error.injEq, true_iff]
      exact ⟨b0, b1, rest, rfl, by omega, by omega⟩

theorem Decode_tooLong_iff (buf : List Nat) :
    Decode buf = .error CErr.tooLong ↔
      decodeHeader buf = .error CErr.tooLong := by
  simp only [Decode]
  match hd : decodeHeader buf with
  | .error e =>
    simp only []
    cases e <;> simp
  | .ok (ofs, n) =>
    simp only []
    split_ifs <;> simp

end CbeSmall

/-! ## Claim theorems -/

/-- Claim C2 — streaming round-trip: for every finite octet sequence `s`
and every chunk size in `[16384, 2113535]`, encoding `s` with the
streaming encoder (`Encoder.ReadFrom`) and decoding the produced byte
stream with the streaming decoder (`Decoder.header` / `Decoder.WriteTo`)
writes exactly `s` to the sink, consumes the whole stream, and reports no
error. -/
theorem claim_C2 (c : Nat) (s : List Nat) (hc1 : 16384 ≤ c)
    (hc2 : c ≤ 2113535) : Cbs.writeTo (Cbs.readFrom c s) = some (s, []) :=
  Cbs.writeTo_readFrom hc1 hc2 s.length s le_rfl

/-- Witness for C2 at chunk size 16384 on the source `[1, 2, 3]`. -/
theorem claim_C2_witness :
    Cbs.writeTo (Cbs.readFrom 16384 [1, 2, 3]) = some ([1, 2, 3], []) :=
  claim_C2 16384 [1, 2, 3] (by decide) (by decide)

/-- Claim C5 — streaming termination: on any finite source the streaming
encoder emits a non-empty chunk sequence in which every chunk except the
last is non-final and the last chunk is the unique final chunk. -/
theorem claim_C5 (c : Nat) (s : List Nat) (hc : 0 < c) :
    Cbs.readFromChunks c s ≠ [] ∧
    ((Cbs.readFromChunks c s).dropLast.all fun ch => ch.part) = true ∧
    ((Cbs.readFromChunks c s).getLast?.map fun ch => ch.part) = some false := by
  obtain ⟨ps, lc, he, hps, hlc⟩ := Cbs.readFromChunks_split hc s.length s le_rfl
  rw [he]
  refine ⟨by simp, ?_, ?_⟩
  · rw [List.dropLast_concat, List.all_eq_true]
    exact hps
  · rw [List.getLast?_concat]
    simp [hlc]

/-- Witness for C5 at chunk size 16384 on the source `[1, 2]`. -/
theorem claim_C5_witness :
    Cbs.readFromChunks 16384 [1, 2] ≠ [] ∧
    ((Cbs.readFromChunks 16384 [1, 2]).dropLast.all fun ch => ch.part) = true ∧
    ((Cbs.readFromChunks 16384 [1, 2]).getLast?.map fun ch => ch.part)
      = some false :=
  claim_C5 16384 [1, 2] (by decide)

/-- Claim C4, amended — every non-final chunk emitted by the streaming
encoder under a legal chunk-size configuration carries a payload whose
length equals the configured chunk size, hence lies in the inclusive
interval `[16384, 2113535]` (not `[16448, 2113535]` as claimed). -/
theorem claim_C4 (c : Nat) (s : List Nat) (hc1 : 16384 ≤ c)
    (hc2 : c ≤ 2113535) :
    ((Cbs.readFromChunks c s).all fun ch =>
      !ch.part || ch.payload.length == c) = true ∧
    ((Cbs.readFromChunks c s).all fun ch =>
      !ch.part || (Nat.ble 16384 ch.payload.length
        && Nat.ble ch.payload.length 2113535)) = true := by
  have key := Cbs.readFromChunks_part_payload (c := c) (by omega) s.length s le_rfl
  constructor
  · rw [List.all_eq_true]
    intro ch hch
    by_cases hp : ch.part = true
    · simp [hp, key ch hch hp]
    · simp [Bool.of_not_eq_true hp]
  · rw [List.all_eq_true]
    intro ch hch
    by_cases hp : ch.part = true
    · have hl := key ch hch hp
      simp only [hp, Bool.not_true, Bool.false_or, Bool.and_eq_true, Nat.ble_eq, hl]
      omega
    · simp [Bool.of_not_eq_true hp]

/-- Witness for C4 at chunk size 16384 on a 20000-byte source. -/
theorem claim_C4_witness :
    ((Cbs.readFromChunks 16384 (List.replicate 20000 7)).all fun ch =>
      !ch.part || ch.payload.length == 16384) = true ∧
    ((Cbs.readFromChunks 16384 (List.replicate 20000 7)).all fun ch =>
      !ch.part || (Nat.ble 16384 ch.payload.length
        && Nat.ble ch.payload.length 2113535)) = true :=
  claim_C4 16384 (List.replicate 20000 7) (by decide) (by decide)

/-- Counterexample to claim C4 as stated: at the legal (default) chunk
size 16384, a 16384-byte source yields a non-final chunk whose payload
length is 16384, which is below the claimed lower bound 16448. -/
theorem claim_C4_counterexample :
    ((Cbs.readFromChunks 16384 (List.replicate 16384 0)).map fun ch =>
      (ch.part, ch.payload.length)) = [(true, 16384), (false, 0)] ∧
    ¬ 16448 ≤ 16384 := by
  have e1 := @Cbs.readFromChunks_of_le 16384 (List.replicate 16384 0) (by decide)
    (by simp only [List.length_replicate]; decide)
  have e2 := @Cbs.readFromChunks_of_lt 16384 ([] : List Nat)
    (by simp only [List.length_nil]; decide)
  refine ⟨?_, by decide⟩
  rw [e1, List.take_replicate, List.drop_replicate]
  norm_num
  rw [e2]
  simp [Cbs.finalChunk]

/-- Claim C6, amended — the streaming encoder at chunk size 16384 on a
40000-byte input emits exactly three chunks: two non-final chunks of
payload length 16384, each with the 4-byte header `0x81 0x60 0x00 0x00`,
followed by a final chunk of payload length 7232 with the 3-byte header
`0x81 0x1B 0xC0`.  (The claimed two chunks with headers
`0x81 0x40 0x00 0x00` and `0x81 0x00 0x1C 0x00` are not emitted.) -/
theorem claim_C6 :
    Cbs.readFromChunks 16384 (List.replicate 40000 0) =
      [⟨true, [0x81, 0x60, 0x00, 0x00], List.replicate 16384 0⟩,
       ⟨true, [0x81, 0x60, 0x00, 0x00], List.replicate 16384 0⟩,
       ⟨false, [0x81, 0x1B, 0xC0], List.replicate 7232 0⟩] :=
  Cbs.chunks40000

/-- Counterexample to claim C6 as stated: on the 40000-byte input the
encoder emits three chunks, not two, and the first chunk's header is not
`0x81 0x40 0x00 0x00`. -/
theorem claim_C6_counterexample :
    (Cbs.readFromChunks 16384 (List.replicate 40000 0)).length ≠ 2 ∧
    ((Cbs.readFromChunks 16384 (List.replicate 40000 0)).head?.map
      fun ch => ch.hdr) ≠ some [0x81, 0x40, 0x00, 0x00] := by
  rw [Cbs.chunks40000]
  constructor
  · simp only [List.length_cons, List.length_nil]
    decide
  · simp only [List.head?_cons, Option.map_some']
    intro h
    have := Option.some.inj h
    simp at this

/-- Claim C3 (refuted, code bug) — evaluation at the failing input: on a
64-byte input the streaming encoder emits the single header byte `0xC0`
before the payload while the contiguous encoder emits the two header
bytes `0xC0 0x00` (as the repository's own `TestEncoder` vectors demand),
so the two encoders do not agree on this small blob. -/
theorem claim_C3 :
    Cbs.readFrom 16384 (List.replicate 64 88) = 0xC0 :: List.replicate 64 88 ∧
    Cbe.Encode [] (List.replicate 64 88)
      = 0xC0 :: 0x00 :: List.replicate 64 88 ∧
    Cbs.readFrom 16384 (List.replicate 64 88)
      ≠ Cbe.Encode [] (List.replicate 64 88) := by
  have h1 : Cbs.readFrom 16384 (List.replicate 64 88)
      = 0xC0 :: List.replicate 64 88 := by
    rw [@Cbs.readFrom_of_lt 16384 (List.replicate 64 88)
      (by simp only [List.length_replicate]; decide)]
    simp [Cbs.finalChunk]
  have h2 : Cbe.Encode [] (List.replicate 64 88)
      = 0xC0 :: 0x00 :: List.replicate 64 88 := by decide
  refine ⟨h1, h2, ?_⟩
  rw [h1, h2]
  intro h
  have := congrArg List.length h
  simp at this

/-- Claim C7 — two-byte header emission: for every payload length `L`
with `64 ≤ L ≤ 16447` the contiguous encoder emits exactly the two header
bytes `0xC0 | ((L-64) >> 8)` and `(L-64) & 0xFF` followed by the payload
verbatim. -/
theorem claim_C7 (src : List Nat) (h1 : 64 ≤ src.length)
    (h2 : src.length ≤ 16447) :
    Cbe.Encode [] src
      = (0xC0 ||| (src.length - 64) >>> 8)
        :: ((src.length - 64) &&& 0xFF) :: src := by
  have hq : (src.length - 64) / 256 < 64 := by omega
  have hlor : ∀ q < 64, 192 ||| q = 192 + q := by decide
  have hand : (src.length - 64) &&& 0xFF = (src.length - 64) % 256 := by
    have := Nat.and_pow_two_sub_one_eq_mod (src.length - 64) 8
    simpa using this
  have hshift : (src.length - 64) >>> 8 = (src.length - 64) / 256 := by
    rw [Nat.shiftRight_eq_div_pow]
  have hc1 : ¬(src.length = 1 ∧ src.head?.getD 0 < 128) := by
    rintro ⟨hx, -⟩
    omega
  simp only [Cbe.Encode]
  rw [if_neg hc1, if_neg (by omega), if_pos (by omega), List.nil_append]
  rw [hshift, hand, hlor _ hq]
  have e1 : (0xc0 + (src.length - 64) / 256 % 256) % 256
      = 192 + (src.length - 64) / 256 := by omega
  rw [e1]

/-- Witness for C7: the 64-byte all-zero input is encoded with the
two-byte header `0xC0 0x00` followed by the payload. -/
theorem claim_C7_witness :
    Cbe.Encode [] (List.replicate 64 0) = 0xC0 :: 0x00 :: List.replicate 64 0 := by
  have h := claim_C7 (List.replicate 64 0)
    (by simp only [List.length_replicate]; decide)
    (by simp only [List.length_replicate]; decide)
  simpa using h

/-- Claim C8 — small-only decoder rejection: the small-only `Decode`
returns `TooLong` exactly when its input starts with the two bytes of a
4-byte streaming-capable header (first byte `0x81`, second byte below
`0x80`); the full contiguous `Decode` never returns `TooLong`, and the
full header parser decodes 4-byte headers normally, to a blob length of
`16448` or more. -/
theorem claim_C8 :
    (∀ buf : List Nat, CbeSmall.Decode buf = .error CErr.tooLong ↔
      ∃ b0 b1 rest, buf = b0 :: b1 :: rest ∧ b0 = 0x81 ∧ b1 < 0x80) ∧
    (∀ buf : List Nat, Cbe.Decode buf ≠ .error CErr.tooLong) ∧
    (∀ b1 b2 b3 : Nat, ∀ rest : List Nat, b1 < 0x80 →
      Cbe.decodeHeader (0x81 :: b1 :: b2 :: b3 :: rest)
        = .ok (4, 16448 + b1 % 64 * 65536 + b2 * 256 + b3, decide (0x40 ≤ b1))) := by
  refine ⟨?_, Cbe.Decode_ne_tooLong, ?_⟩
  · intro buf
    rw [CbeSmall.Decode_tooLong_iff, CbeSmall.decodeHeader_tooLong_iff]
  · intro b1 b2 b3 rest hb1
    simp only [Cbe.decodeHeader]
    rw [if_neg (by decide), if_neg (by decide),
      if_neg (by rintro ⟨-, hx⟩; omega), if_neg (by decide)]

/-- Witness for C8: `0x81 0x00` is rejected as too long by the small-only
decoder, and the full parser decodes the 4-byte header `0x81 0x40 0x00
0x00` to a 16448-byte partial chunk. -/
theorem claim_C8_witness :
    CbeSmall.Decode [0x81, 0x00] = .error CErr.tooLong ∧
    Cbe.decodeHeader [0x81, 0x40, 0x00, 0x00] = .ok (4, 16448, true) := by
  constructor
  · exact (claim_C8.1 [0x81, 0x00]).mpr ⟨0x81, 0x00, [], rfl, rfl, by decide⟩
  · have h := claim_C8.2.2 0x40 0x00 0x00 [] (by decide)
    simpa using h

/-- Claim C10 — small-only encoder panic freedom under its precondition:
the small-only `Encode` returns normally (does not panic) exactly when
the content is shorter than 16448 bytes. -/
theorem claim_C10 (dst src : List Nat) :
    CbeSmall.Encode dst src ≠ none ↔ src.length < 16448 := by
  simp only [CbeSmall.Encode]
  split_ifs with h1 h2 h3
  · obtain ⟨h1a, -⟩ := h1
    simp
    omega
  · simp
    omega
  · simp
    omega
  · simp
    omega

namespace Cbs

theorem beVal_replicate_zero_append (k : Nat) (b : List Nat) :
    beVal (List.replicate k 0 ++ b) = beVal b := by
  induction k with
  | zero => rfl
  | succ k ih =>
    rw [List.replicate_succ, List.cons_append]
    simpa [beVal] using ih

theorem beVal_dropWhile_zero (l : List Nat) :
    beVal (l.dropWhile (· == 0)) = beVal l := by
  induction l with
  | nil => rfl
  | cons x t ih =>
    by_cases hx : x = 0
    · subst hx
      rw [List.dropWhile_cons]
      simp only [beq_self_eq_true, if_true]
      rw [ih]
      simp [beVal]
    · rw [List.dropWhile_cons]
      simp [hx]

theorem beVal_putUint64BE {u : Nat} (hu : u < 2 ^ 64) :
    beVal (putUint64BE u) = u := by
  simp only [putUint64BE, beVal, List.foldl_cons, List.foldl_nil]
  omega

theorem length_dropWhile_le (p : Nat → Bool) (l : List Nat) :
    (l.dropWhile p).length ≤ l.length := by
  induction l with
  | nil => simp
  | cons x t ih =>
    rw [List.dropWhile_cons]
    split_ifs with h
    · simp only [List.length_cons]
      omega
    · simp

theorem uint64Bytes_length (u : Nat) : (uint64Bytes u).length ≤ 8 := by
  have h := length_dropWhile_le (· == 0) (putUint64BE u)
  simpa [uint64Bytes, putUint64BE] using h

theorem beVal_uint64Bytes {u : Nat} (hu : u < 2 ^ 64) :
    beVal (uint64Bytes u) = u := by
  rw [uint64Bytes, beVal_dropWhile_zero, beVal_putUint64BE hu]

/-- `Decoder.Uint64` recovers the value blob-encoded by `Encoder.Uint64`. -/
theorem decoderUint64_roundtrip {c u : Nat} (hc1 : 16384 ≤ c)
    (hc2 : c ≤ 2113535) (hu : u < 2 ^ 64) :
    decoderUint64 (readFrom c (uint64Bytes u)) = some u := by
  rw [decoderUint64,
    writeTo_readFrom hc1 hc2 (uint64Bytes u).length (uint64Bytes u) le_rfl]
  simp only []
  rw [if_neg (by have := uint64Bytes_length u; omega)]
  rw [beVal_replicate_zero_append, beVal_uint64Bytes hu]

/-- The zig-zag decoding branch inverts the zig-zag encoding map on the
int64 range. -/
theorem int64_roundtrip_zigzag {v : Int} (hv1 : -(2 ^ 63) ≤ v)
    (hv2 : v < 2 ^ 63) : zigzagDec (int64U v) = v := by
  by_cases hv : 0 ≤ v
  · have hmod : 2 * v.toNat % 2 ^ 64 = 2 * v.toNat := Nat.mod_eq_of_lt (by omega)
    simp only [int64U, if_pos hv, hmod, zigzagDec, int64Of]
    rw [if_pos (by omega), if_pos (by omega)]
    omega
  · push_neg at hv
    have hmod : (2 * (-v - 1).toNat + 1) % 2 ^ 64 = 2 * (-v - 1).toNat + 1 :=
      Nat.mod_eq_of_lt (by omega)
    simp only [int64U, if_neg (by omega : ¬ (0:Int) ≤ v), hmod, zigzagDec, int64Of]
    rw [if_neg (by omega), if_pos (by omega)]
    omega

end Cbs

/-- Claim C9 — zig-zag signed-integer round trip: `Encoder.Int64` maps
`v ≥ 0` to the unsigned value `2v` and `v < 0` to `2(-v-1)+1` before
blob-encoding; `Decoder.Int64` maps an even decoded unsigned `u` to `u/2`
and an odd `u` to `-((u-1)/2)-1`; and consequently for every int64 `v`,
encoding `v` with `Encoder.Int64` and decoding the emitted byte stream
with `Decoder.Int64` yields `v` again. -/
theorem claim_C9 (c : Nat) (v : Int) (hc1 : 16384 ≤ c) (hc2 : c ≤ 2113535)
    (hv1 : -(2 ^ 63) ≤ v) (hv2 : v < 2 ^ 63) :
    (0 ≤ v → Cbs.int64U v = (2 * v).toNat) ∧
    (v < 0 → Cbs.int64U v = (2 * (-v - 1) + 1).toNat) ∧
    (∀ u : Nat, u < 2 ^ 64 →
      (u % 2 = 0 → Cbs.zigzagDec u = ((u / 2 : Nat) : Int)) ∧
      (u % 2 = 1 → Cbs.zigzagDec u = -(((u - 1) / 2 : Nat) : Int) - 1)) ∧
    Cbs.decoderInt64 (Cbs.encoderInt64 c v) = some v := by
  refine ⟨?_, ?_, ?_, ?_⟩
  · intro hv
    simp only [Cbs.int64U, if_pos hv]
    omega
  · intro hv
    simp only [Cbs.int64U, if_neg (by omega : ¬ (0:Int) ≤ v)]
    omega
  · intro u hu
    constructor
    · intro he
      simp only [Cbs.zigzagDec, if_pos he, Cbs.int64Of]
      rw [if_pos (by omega)]
    · intro ho
      simp only [Cbs.zigzagDec, Cbs.int64Of]
      rw [if_neg (by omega), if_pos (by omega)]
      omega
  · have hu : Cbs.int64U v < 2 ^ 64 := by
      simp only [Cbs.int64U]
      split_ifs <;> exact Nat.mod_lt _ (by norm_num)
    rw [Cbs.encoderInt64, Cbs.decoderInt64,
      Cbs.decoderUint64_roundtrip hc1 hc2 hu]
    simp only []
    rw [Cbs.int64_roundtrip_zigzag hv1 hv2]

/-- Witness for C9 at chunk size 16384 and the value `-5`. -/
theorem claim_C9_witness :
    Cbs.decoderInt64 (Cbs.encoderInt64 16384 (-5)) = some (-5) :=
  (claim_C9 16384 (-5) (by decide) (by decide) (by decide) (by decide)).2.2.2

/-- Claim C1 (refuted, code bug) — evaluation at the failing input: on a
4210752-byte input the contiguous `Encode` falls back on the streaming
encoder, whose chunk headers use the streaming grammar (length offset
16384, flag bits `0x60`/`0x40`), while the contiguous `Decode` parses
4-byte headers with the contiguous grammar (offset 16448, mask `0x3f`).
`Decode` therefore reads a first payload of 4210751 bytes instead of
2113535, swallowing the second chunk header, and returns garbled content
with a 4-byte remainder instead of the original input with an empty
remainder. -/
theorem claim_C1 :
    Cbe.Encode [] (List.replicate 4210752 0)
      = Cbs.readFrom Cbs.MaxChunkLen (List.replicate 4210752 0) ∧
    Cbe.Decode (Cbe.Encode [] (List.replicate 4210752 0))
      = .ok (List.replicate 2113535 0 ++ ([129, 95, 192, 65]
          ++ (List.replicate 2097212 0 ++ [0])), [0, 0, 0, 0]) ∧
    Cbe.Decode (Cbe.Encode [] (List.replicate 4210752 0))
      ≠ .ok (List.replicate 4210752 0, []) := by
  -- the contiguous encoder takes its streaming fallback branch
  have hEnc : Cbe.Encode [] (List.replicate 4210752 0)
      = Cbs.readFrom Cbs.MaxChunkLen (List.replicate 4210752 0) := by
    simp only [Cbe.Encode]
    rw [if_neg (by rintro ⟨h, -⟩; simp only [List.length_replicate] at h; omega),
      if_neg (by simp only [List.length_replicate]; decide),
      if_neg (by simp only [List.length_replicate]; decide),
      if_neg (by simp only [List.length_replicate]; decide),
      List.nil_append]
  -- the emitted stream: one chunk-size non-final chunk, then a final chunk
  have hstream : Cbs.readFrom Cbs.MaxChunkLen (List.replicate 4210752 0)
      = [129, 127, 255, 255] ++ (List.replicate 2113535 0
          ++ ([129, 95, 192, 65] ++ List.replicate 2097217 0)) := by
    have h1 := @Cbs.readFrom_of_le 2113535 (List.replicate 4210752 0)
      (by decide) (by simp only [List.length_replicate]; decide)
    have h2 := @Cbs.readFrom_of_lt 2113535 (List.replicate 2097217 0)
      (by simp only [List.length_replicate]; decide)
    have e4 : Cbs.partHdr 2113535 = [129, 127, 255, 255] := by
      norm_num [Cbs.partHdr]
    have e5 : (Cbs.finalChunk (List.replicate 2097217 0)).hdr
        = [129, 95, 192, 65] := by
      simp only [Cbs.finalChunk, List.length_replicate]
      norm_num
    show Cbs.readFrom 2113535 _ = _
    rw [h1, List.take_replicate, List.drop_replicate]
    norm_num
    rw [h2, e4, e5]
    simp only [List.cons_append, List.nil_append]
  -- the contiguous header parser reads the first header as 4210751 bytes
  have hdec : Cbe.decodeHeader ([129, 127, 255, 255] ++ (List.replicate 2113535 0
      ++ ([129, 95, 192, 65] ++ List.replicate 2097217 0)))
      = .ok (4, 4210751, true) := by
    simp only [List.cons_append, List.nil_append, Cbe.decodeHeader]
    rw [if_neg (by decide), if_neg (by decide), if_neg (by decide),
      if_neg (by decide)]
    norm_num
  have hlenS : ([129, 127, 255, 255] ++ (List.replicate 2113535 0
      ++ ([129, 95, 192, 65] ++ List.replicate 2097217 0))).length = 4210760 := by
    rw [List.length_append, List.length_append, List.length_append,
      List.length_replicate, List.length_replicate]
    rfl
  have hpart := Cbe.Decode_of_part hdec (by rw [hlenS]; decide)
  -- split off the last five bytes of the stream
  have hsp : List.replicate 2097217 (0 : Nat)
      = List.replicate 2097212 0 ++ [0, 0, 0, 0, 0] := by
    have h := List.replicate_add 2097212 5 (0 : Nat)
    rw [show (2097212 + 5 : Nat) = 2097217 from by norm_num] at h
    exact h
  have hsplitS : [129, 127, 255, 255] ++ (List.replicate 2113535 (0 : Nat)
      ++ ([129, 95, 192, 65] ++ List.replicate 2097217 0))
      = ([129, 127, 255, 255] ++ (List.replicate 2113535 0
          ++ ([129, 95, 192, 65] ++ List.replicate 2097212 0))) ++ [0, 0, 0, 0, 0] := by
    simp only [List.append_assoc]
    rw [hsp]
  have hPrefLen : ([129, 127, 255, 255] ++ (List.replicate 2113535 (0 : Nat)
      ++ ([129, 95, 192, 65] ++ List.replicate 2097212 0))).length = 4 + 4210751 := by
    rw [List.length_append, List.length_append, List.length_append,
      List.length_replicate, List.length_replicate]
    rfl
  have hdropBig : ([129, 127, 255, 255] ++ (List.replicate 2113535 (0 : Nat)
      ++ ([129, 95, 192, 65] ++ List.replicate 2097217 0))).drop (4 + 4210751)
      = [0, 0, 0, 0, 0] := by
    rw [hsplitS]
    exact List.drop_left' hPrefLen
  -- the first decode step swallows the second chunk header
  have htake : (List.replicate 2113535 (0 : Nat) ++ ([129, 95, 192, 65]
      ++ List.replicate 2097217 0)).take 4210751
      = List.replicate 2113535 0 ++ ([129, 95, 192, 65]
          ++ List.replicate 2097212 0) := by
    rw [List.take_append_eq_append_take,
      List.take_of_length_le (by rw [List.length_replicate]; decide),
      show 4210751 - (List.replicate 2113535 (0 : Nat)).length = 2097216 from
        by rw [List.length_replicate],
      List.take_append_eq_append_take,
      List.take_of_length_le (by decide),
      show 2097216 - ([129, 95, 192, 65] : List Nat).length = 2097212 from by decide,
      List.take_replicate,
      show min 2097212 2097217 = 2097212 from by norm_num]
  have hrec : Cbe.Decode [0, 0, 0, 0, 0] = .ok ([0], [0, 0, 0, 0]) := by
    rw [Cbe.Decode_of_final (by rfl) (by decide)]
    rfl
  have hB : Cbe.Decode (Cbe.Encode [] (List.replicate 4210752 0))
      = .ok (List.replicate 2113535 0 ++ ([129, 95, 192, 65]
          ++ (List.replicate 2097212 0 ++ [0])), [0, 0, 0, 0]) := by
    rw [hEnc, hstream, hpart, hdropBig, hrec]
    simp only []
    rw [List.drop_left'
      (show ([129, 127, 255, 255] : List Nat).length = 4 from rfl)]
    rw [htake]
    simp only [List.append_assoc]
  refine ⟨hEnc, hB, ?_⟩
  intro h
  rw [hB] at h
  simp only [Except.ok.injEq, Prod.mk.injEq] at h
  exact absurd h.2 (by simp)

end Cofo
